import Mathlib

/-!
Verification of the asset-manifest change-detection and merge engine
(`asset_group.py`): data model, manifest merge (`update_manifest`),
change detection (`get_file_changes` / `get_manifest_changes`), the
manifest reader (`read_manifest_data`) and the upload command's
decision logic (`asset_upload`).

The manifest codec (`decode_manifest` / `encode`) is an external
collaborator that round-trips manifests losslessly, so a manifest file's
content is modelled directly as the decoded `BaseAssetManifest` value.
-/

/-- Status of one file compared against its manifest record
(`deadline.job_attachments.upload.FileStatus`). -/
inductive FileStatus where
  | NEW
  | MODIFIED
  | UNCHANGED
  | DELETED
deriving DecidableEq, Repr, Inhabited

/-- One tracked file entry of a manifest
(`deadline.job_attachments.models.BaseManifestPath`): relative path,
content hash, and further stored metadata (size, mtime). -/
structure BaseManifestPath where
  path : String
  hash : String
  size : Nat
  mtime : Nat
deriving DecidableEq, Repr, Inhabited

/-- A manifest: format/version metadata (opaque to the merge) plus the
ordered list of tracked entries. -/
structure BaseAssetManifest where
  version : String
  paths : List BaseManifestPath
deriving DecidableEq, Repr, Inhabited

/-- A detected change: a status tagged with the file's manifest entry. -/
abbrev Change := FileStatus × BaseManifestPath

/-- The Python dict `manifest_info_dict` of `update_manifest`, modelled as
an insertion-ordered association list keyed by relative path. -/
abbrev PathDict := List (String × BaseManifestPath)

/-- `manifest_info_dict[path].hash = h`: overwrite the hash of the entry
stored under key `k`, in place (position and all other fields kept). -/
def setHash (d : PathDict) (k h : String) : PathDict :=
  d.map (fun kv => if kv.1 = k then (kv.1, { kv.2 with hash := h }) else kv)

/-- One iteration of the merge loop of `update_manifest`: if the changed
entry's path is already a key, overwrite only the stored hash; otherwise
append the new entry.  The tagged `FileStatus` is ignored, exactly as the
source's `for _, base_asset_manifest in new_or_modified_paths`. -/
def dictStep (d : PathDict) (c : Change) : PathDict :=
  if c.2.path ∈ d.map (·.1) then setHash d c.2.path c.2.hash
  else d ++ [(c.2.path, c.2)]

/-- The whole merge loop of `update_manifest` over the change list. -/
def mergeDict (d : PathDict) (cs : List Change) : PathDict :=
  cs.foldl dictStep d

/-- Python dict assignment `d[p.path] = p`: replace the value at an
existing key in place, otherwise append. -/
def dictInsert (d : PathDict) (p : BaseManifestPath) : PathDict :=
  if p.path ∈ d.map (·.1) then
    d.map (fun kv => if kv.1 = p.path then (p.path, p) else kv)
  else d ++ [(p.path, p)]

/-- The dict comprehension
`{base_manifest_path.path: base_manifest_path for base_manifest_path in local_base_asset_manifest.paths}`. -/
def dictOfPaths (ps : List BaseManifestPath) : PathDict :=
  ps.foldl dictInsert []

/-- The state of a manifest directory: `os.listdir` order paired with each
file's (decoded) manifest content.  Only `*_input` files hold manifests. -/
structure ManifestDir where
  files : List (String × BaseAssetManifest)
deriving DecidableEq, Repr, Inhabited

/-- Errors surfaced by the embedded CLI operations.
`noInputManifest` models the `NameError` (`local_base_asset_manifest`
referenced before assignment) that `update_manifest` hits when the
directory holds no `*_input` file; `manifestOutdated` models
`ManifestOutdatedError`. -/
inductive CliError where
  | manifestOutdated
  | noInputManifest
deriving DecidableEq, Repr

/-- Boolean prefix test on character lists, the semantics of Python's
`str.startswith`. -/
def isPrefixList : List Char → List Char → Bool
  | [], _ => true
  | _ :: _, [] => false
  | a :: as, b :: bs => a == b && isPrefixList as bs

/-- Python's `str.endswith`: true when the second string is a suffix of
the first. -/
def pyEndsWith (s suffixString : String) : Bool :=
  isPrefixList suffixString.data.reverse s.data.reverse

/-- The manifest-file selection loop of `update_manifest`:
`for filename in os.listdir(manifest): if filename.endswith("_input"): ...`
decodes every matching file in turn, so whichever `*_input` file is
enumerated last is the one kept (and later used as the rewrite target). -/
def findLastInput (dir : ManifestDir) : Option (String × BaseAssetManifest) :=
  (dir.files.filter (fun f => pyEndsWith f.1 "_input")).getLast?

/-- `update_manifest(manifest, new_or_modified_paths)`: decode the last
enumerated `*_input` file, merge the change list into its path dict,
then overwrite that same file with the merged manifest and return it. -/
def update_manifest (dir : ManifestDir) (cs : List Change) :
    Except CliError (BaseAssetManifest × ManifestDir) :=
  match findLastInput dir with
  | none => .error .noInputManifest
  | some (fname, m) =>
    let d := mergeDict (dictOfPaths m.paths) cs
    let m1 : BaseAssetManifest := { m with paths := d.map (·.2) }
    .ok (m1, ⟨dir.files.map (fun f => if f.1 = fname then (fname, m1) else f)⟩)

/-- Observable outcome of the tail of `asset_upload` (from the point the
detected change list is known): the manifest handed to
`api.upload_attachments`, the manifest-directory state afterwards, and
whether the local manifest file was rewritten. -/
structure UploadResult where
  manifest : BaseAssetManifest
  dir : ManifestDir
  rewrote : Bool
deriving DecidableEq, Repr

/-- The decision logic of `asset_upload` after change detection: when
changes were found, either update the local manifest (`--update`) or
raise `ManifestOutdatedError`; only an `.ok` result reaches
`api.upload_attachments`. -/
def asset_upload_core (dir : ManifestDir) (asset_manifest : BaseAssetManifest)
    (manifest_changes : List Change) (update : Bool) :
    Except CliError UploadResult :=
  if manifest_changes.length > 0 then
    if update then
      match update_manifest dir manifest_changes with
      | .error e => .error e
      | .ok (m1, dir1) => .ok ⟨m1, dir1, true⟩
    else .error .manifestOutdated
  else .ok ⟨asset_manifest, dir, false⟩

/-- The JSON object loaded by `read_manifest_data`, which must carry a
`"paths"` key. -/
structure ManifestJsonData where
  paths : List BaseManifestPath
deriving DecidableEq, Repr

/-- `read_manifest_data`: initialises `data_paths = []`, loops over the
entries printing each one (no accumulation), and returns `data_paths`. -/
def read_manifest_data (manifest_data : ManifestJsonData) :
    List (FileStatus × BaseManifestPath) :=
  let data_paths : List (FileStatus × BaseManifestPath) := []
  manifest_data.paths.foldl (fun acc _entry => acc) data_paths

/-- Python's `str.startswith`: `pyStartsWith s pre` is true when `pre` is
a prefix of `s`. -/
def pyStartsWith (s pre : String) : Bool :=
  isPrefixList pre.data s.data

/-- `Path(root_path, relative)`: joining a root directory with a relative
path. -/
def joinPath (root rel : String) : String :=
  root ++ "/" ++ rel

/-- The manifest entries kept by the skip test of `get_manifest_changes`:
an entry is dropped when
`base_manifest_path.path.startswith(manifest_dir_name)`. -/
def manifest_changes_kept (manifest_dir_name : String)
    (ps : List BaseManifestPath) : List BaseManifestPath :=
  ps.filter (fun p => !(pyStartsWith p.path manifest_dir_name))

/-- The `input_paths` list built by `get_manifest_changes` and handed to
`get_file_changes`: each kept entry resolved under the root. -/
def get_manifest_changes_inputs (root_path manifest_dir_name : String)
    (ps : List BaseManifestPath) : List String :=
  (manifest_changes_kept manifest_dir_name ps).map
    (fun p => joinPath root_path p.path)

/-- The specification's skip criterion, stated in its own words: an
entry's path lies under the excluded directory, i.e. the directory name
followed by a path separator is a prefix of it. -/
def underDir (dirName p : String) : Bool :=
  pyStartsWith p (dirName ++ "/")

/-- The change list writes to key `k`: some change's entry has path `k`. -/
def assigned (cs : List Change) (k : String) : Prop :=
  ∃ c ∈ cs, c.2.path = k

/-- The hash the merge loop writes last to key `k`, if the change list
touches `k` at all. -/
def lastAssign? : List Change → String → Option String
  | [], _ => none
  | c :: cs, k =>
    match lastAssign? cs k with
    | some h => some h
    | none => if c.2.path = k then some c.2.hash else none

/-- Proof-infrastructure relation on dict entries: same key and same
entry fields, except that the hashes may differ at keys the change list
assigns (those hashes are overwritten before the merge ends). -/
def eqvAt (cs : List Change) (a b : String × BaseManifestPath) : Prop :=
  a.1 = b.1 ∧ a.2.path = b.2.path ∧ a.2.size = b.2.size ∧ a.2.mtime = b.2.mtime
    ∧ (a.2.hash = b.2.hash ∨ assigned cs a.1)

/-- Stat information of one file on disk: byte size and modification
time — the data of the `Fingerprint`. -/
structure FsFile where
  size : Nat
  mtime : Nat
deriving DecidableEq, Repr, Inhabited

/-- The filesystem state seen by change detection: stat information per
absolute path, `none` when the path is absent from disk. -/
abbrev FileSystem := String → Option FsFile

/-- The (size, mtime) fingerprint used as the cache key discriminant. -/
abbrev Fingerprint := Nat × Nat

/-- The hash cache (`HashCache(cache_config)`): per absolute path the
stored fingerprint and previously computed content hash. -/
abbrev HashCache := String → Option (Fingerprint × String)

/-- An I/O error raised while opening or reading a file for hashing. -/
structure IOErr where
  msg : String
deriving DecidableEq, Repr

/-- Spec §4.3 step 3: consult the cache under the current fingerprint —
a hit with an equal fingerprint reuses the stored hash without reading
the file; any mismatch (or no entry) invokes the content hasher, which
may fail with an I/O error. -/
def hashResult (hasher : String → Except IOErr String) (cache : HashCache)
    (p : String) (fp : Fingerprint) : Except IOErr String :=
  match cache p with
  | some (fp', h') => if fp' = fp then .ok h' else hasher p
  | none => hasher p

/-- Spec §4.3 step 4: derive the status from the manifest's recorded
hash — no record is `NEW`, an equal hash `UNCHANGED`, otherwise
`MODIFIED`. -/
def statusOf (record : String → Option String) (p h : String) : FileStatus :=
  match record p with
  | none => FileStatus.NEW
  | some h0 => if h = h0 then FileStatus.UNCHANGED else FileStatus.MODIFIED

/-- Modelled from the spec: `S3AssetManager._process_input_path` is
external library code, not part of this repository.  Per spec §4.3 it
classifies one input path: a path absent from disk is `DELETED` (a
terminal classification, no hashing attempted, cache untouched);
otherwise the current fingerprint is computed from stat data, the hash
comes from `hashResult`, the cache entry is refreshed under the current
fingerprint, and the status is `statusOf` the resulting hash. -/
def process_input_path (hasher : String → Except IOErr String)
    (fs : FileSystem) (record : String → Option String) (cache : HashCache)
    (p : String) :
    Except IOErr ((FileStatus × BaseManifestPath) × HashCache) :=
  match fs p with
  | none => .ok ((FileStatus.DELETED, ⟨p, (record p).getD "", 0, 0⟩), cache)
  | some f =>
    match hashResult hasher cache p (f.size, f.mtime) with
    | .error e => .error e
    | .ok h =>
      .ok ((statusOf record p h, ⟨p, h, f.size, f.mtime⟩),
        fun q => if q = p then some ((f.size, f.mtime), h) else cache q)

/-- The `as_completed` loop of `get_file_changes`: take each future's
result in completion order (`order`), threading the shared hash cache;
the first exception raised by `future.result()` propagates and aborts
the loop. -/
def detect_run (hasher : String → Except IOErr String) (fs : FileSystem)
    (record : String → Option String) :
    HashCache → List String →
      Except IOErr (List (FileStatus × BaseManifestPath) × HashCache)
  | c, [] => .ok ([], c)
  | c, p :: ps =>
    match process_input_path hasher fs record c p with
    | .error e => .error e
    | .ok (r, c1) =>
      match detect_run hasher fs record c1 ps with
      | .error e => .error e
      | .ok (rs, c2) => .ok (r :: rs, c2)

/-- `get_file_changes`: classify every input path (in completion order)
against the hash cache, then keep only the classifications whose status
`is FileStatus.NEW or ... is FileStatus.MODIFIED`. -/
def get_file_changes (hasher : String → Except IOErr String)
    (fs : FileSystem) (record : String → Option String) (cache : HashCache)
    (order : List String) :
    Except IOErr (List (FileStatus × BaseManifestPath) × HashCache) :=
  match detect_run hasher fs record cache order with
  | .error e => .error e
  | .ok (rs, c) =>
    .ok (rs.filter
      (fun r => r.1 == FileStatus.NEW || r.1 == FileStatus.MODIFIED), c)

/-- `get_manifest_changes`: resolve the manifest's entries under the
root, skip those starting with the manifest directory's basename, and
hand the result to `get_file_changes`. -/
def get_manifest_changes (hasher : String → Except IOErr String)
    (fs : FileSystem) (record : String → Option String) (cache : HashCache)
    (root_path manifest_dir_name : String) (manifest : BaseAssetManifest) :
    Except IOErr (List (FileStatus × BaseManifestPath) × HashCache) :=
  get_file_changes hasher fs record cache
    (get_manifest_changes_inputs root_path manifest_dir_name manifest.paths)

/-- The classification one path gets, dropping the cache the call would
write (proof helper). -/
def presult (hasher : String → Except IOErr String) (fs : FileSystem)
    (record : String → Option String) (cache : HashCache) (p : String) :
    Except IOErr (FileStatus × BaseManifestPath) :=
  (process_input_path hasher fs record cache p).map Prod.fst

/-- Total extraction of a successful classification (proof helper). -/
def pextract (hasher : String → Except IOErr String) (fs : FileSystem)
    (record : String → Option String) (cache : HashCache) (p : String) :
    FileStatus × BaseManifestPath :=
  match presult hasher fs record cache p with
  | .ok r => r
  | .error _ => (FileStatus.UNCHANGED, ⟨"", "", 0, 0⟩)

/-- Per-path classifications against one fixed cache, sequenced in order
with the first error propagating (proof helper). -/
def seqMap (hasher : String → Except IOErr String) (fs : FileSystem)
    (record : String → Option String) (cache : HashCache) :
    List String → Except IOErr (List (FileStatus × BaseManifestPath))
  | [] => .ok []
  | p :: ps =>
    match presult hasher fs record cache p with
    | .error e => .error e
    | .ok r =>
      match seqMap hasher fs record cache ps with
      | .error e => .error e
      | .ok rs => .ok (r :: rs)

/-- Auxiliary for `read_manifest_data`: a fold whose body ignores the
element leaves the accumulator untouched. -/
theorem foldl_const {α β : Type} (l : List β) (acc : α) :
    l.foldl (fun a _ => a) acc = acc := by
  induction l generalizing acc with
  | nil => rfl
  | cons x xs ih => simp only [List.foldl]; exact ih acc

/-- Claim C9: for every manifest JSON object carrying a `"paths"` key,
`read_manifest_data` returns the empty list — no entry data is ever
accumulated into its result, however many entries the manifest has. -/
theorem c9_read_manifest_data_empty (manifest_data : ManifestJsonData) :
    read_manifest_data manifest_data = [] := by
  unfold read_manifest_data
  exact foldl_const manifest_data.paths []

/-- Claim C10: in `asset_upload`, a non-empty change list with the update
flag off raises `ManifestOutdatedError` before any upload is attempted
(no `.ok` outcome is produced), and the local manifest file is rewritten
only when the update flag is true (without it, the directory state is
returned untouched). -/
theorem c10_upload_outdated_guard (dir : ManifestDir)
    (m : BaseAssetManifest) (changes : List Change) (u : Bool)
    (hne : changes ≠ []) :
    asset_upload_core dir m changes false = .error CliError.manifestOutdated
    ∧ (∀ res, asset_upload_core dir m changes u = .ok res →
        res.rewrote = true → u = true)
    ∧ (∀ res, asset_upload_core dir m changes u = .ok res →
        res.rewrote = false → res.dir = dir) := by
  have hlen : 0 < changes.length := List.length_pos.mpr hne
  refine ⟨?_, ?_, ?_⟩
  · simp [asset_upload_core, hlen]
  · intro res hres hrw
    by_contra hu
    have hu' : u = false := by
      cases u with
      | false => rfl
      | true => exact absurd rfl hu
    subst hu'
    simp [asset_upload_core, hlen] at hres
  · intro res hres hrw
    cases u with
    | false => simp [asset_upload_core, hlen] at hres
    | true =>
      by_cases hl : changes.length > 0
      · simp only [asset_upload_core, if_pos hl, if_pos rfl] at hres
        cases hup : update_manifest dir changes with
        | error e => rw [hup] at hres; cases hres
        | ok p =>
          rw [hup] at hres
          cases hres
          simp at hrw
      · exact absurd hlen hl

/-- Witness for C10 at a concrete non-empty change list. -/
theorem c10_upload_outdated_guard_witness :
    ([((FileStatus.MODIFIED : FileStatus), (⟨"a.txt", "h2", 1, 2⟩ : BaseManifestPath))] ≠
      ([] : List Change))
    ∧ asset_upload_core ⟨[("m_input", ⟨"v1", [⟨"a.txt", "h1", 1, 1⟩]⟩)]⟩
        ⟨"v1", [⟨"a.txt", "h1", 1, 1⟩]⟩
        [((FileStatus.MODIFIED : FileStatus), (⟨"a.txt", "h2", 1, 2⟩ : BaseManifestPath))]
        false = .error CliError.manifestOutdated := by
  refine ⟨by decide, ?_⟩
  exact (c10_upload_outdated_guard ⟨[("m_input", ⟨"v1", [⟨"a.txt", "h1", 1, 1⟩]⟩)]⟩
    ⟨"v1", [⟨"a.txt", "h1", 1, 1⟩]⟩
    [((FileStatus.MODIFIED : FileStatus), (⟨"a.txt", "h2", 1, 2⟩ : BaseManifestPath))]
    false (by decide)).1

/-- Dropping a suffix of the tested prefix preserves a successful prefix
test. -/
theorem isPrefixList_of_append {x y s : List Char}
    (h : isPrefixList (x ++ y) s = true) : isPrefixList x s = true := by
  induction x generalizing s with
  | nil => rfl
  | cons a as ih =>
    cases s with
    | nil => simp [isPrefixList] at h
    | cons b bs =>
      simp only [List.cons_append, isPrefixList, Bool.and_eq_true] at h ⊢
      exact ⟨h.1, ih h.2⟩

/-- A path under the excluded directory also passes the source's bare
`startswith` test on the directory name. -/
theorem pyStartsWith_of_underDir {dirName p : String}
    (h : underDir dirName p = true) : pyStartsWith p dirName = true := by
  unfold underDir pyStartsWith at h
  unfold pyStartsWith
  rw [String.data_append] at h
  exact isPrefixList_of_append h

/-- Claim C5 (amended): `get_manifest_changes` keeps a manifest entry iff
its relative path does not start (as a string) with the manifest
directory's basename; every entry genuinely under that directory is
skipped, but the string-prefix test can also skip entries that are not
under it. -/
theorem c5_skip_is_string_prefix (manifest_dir_name : String)
    (ps : List BaseManifestPath) (p : BaseManifestPath) (hp : p ∈ ps) :
    (p ∈ manifest_changes_kept manifest_dir_name ps ↔
      pyStartsWith p.path manifest_dir_name = false)
    ∧ (underDir manifest_dir_name p.path = true →
        p ∉ manifest_changes_kept manifest_dir_name ps) := by
  constructor
  · rw [manifest_changes_kept, List.mem_filter]
    constructor
    · intro h
      have := h.2
      simpa using this
    · intro h
      exact ⟨hp, by simp [h]⟩
  · intro hu hmem
    rw [manifest_changes_kept, List.mem_filter] at hmem
    have := hmem.2
    rw [pyStartsWith_of_underDir hu] at this
    simp at this

/-- Witness for C5 (amended) on a concrete manifest. -/
theorem c5_skip_is_string_prefix_witness :
    ((⟨"assets/a.txt", "h1", 1, 1⟩ : BaseManifestPath) ∈
        manifest_changes_kept "root_manifests" [⟨"assets/a.txt", "h1", 1, 1⟩] ↔
      pyStartsWith "assets/a.txt" "root_manifests" = false)
    ∧ (underDir "root_manifests" "assets/a.txt" = true →
        (⟨"assets/a.txt", "h1", 1, 1⟩ : BaseManifestPath) ∉
          manifest_changes_kept "root_manifests" [⟨"assets/a.txt", "h1", 1, 1⟩]) :=
  c5_skip_is_string_prefix "root_manifests" [⟨"assets/a.txt", "h1", 1, 1⟩]
    ⟨"assets/a.txt", "h1", 1, 1⟩ (by simp)

/-- Counterexample to C5 as stated: with the manifest directory named
`man`, the entry `manuscript.txt` is not under the directory `man/`, yet
the source's `startswith` test skips it (it is absent from the kept
list), so entries not under an excluded directory can be skipped. -/
theorem c5_counterexample :
    underDir "man" "manuscript.txt" = false
    ∧ manifest_changes_kept "man" [⟨"manuscript.txt", "h1", 1, 1⟩] = [] := by
  constructor
  · decide
  · decide

/-- Claim C6: evaluating `update_manifest` at a directory with two
`*_input` manifest files shows it silently succeeds using whichever file
was enumerated last (here `b_input`), and at a directory with no
`*_input` file it fails with the unbound-local error — in neither case
is a `ManifestInconsistency` rejection produced (no such rejection
exists in the code). -/
theorem c6_no_single_manifest_precondition :
    update_manifest
        ⟨[("a_input", ⟨"vA", [⟨"a.txt", "ha", 1, 1⟩]⟩),
          ("b_input", ⟨"vB", [⟨"b.txt", "hb", 2, 2⟩]⟩)]⟩ []
      = .ok (⟨"vB", [⟨"b.txt", "hb", 2, 2⟩]⟩,
          ⟨[("a_input", ⟨"vA", [⟨"a.txt", "ha", 1, 1⟩]⟩),
            ("b_input", ⟨"vB", [⟨"b.txt", "hb", 2, 2⟩]⟩)]⟩)
    ∧ update_manifest ⟨[("x_other", ⟨"vA", [⟨"a.txt", "ha", 1, 1⟩]⟩)]⟩ []
      = .error CliError.noInputManifest := by
  constructor
  · rfl
  · rfl

/-- A `getLast?` hit is a member of the list. -/
theorem getLast?_mem_of_eq_some {α : Type} {l : List α} {x : α}
    (h : l.getLast? = some x) : x ∈ l := by
  obtain ⟨hne, hx⟩ := List.mem_getLast?_eq_getLast (Option.mem_def.mpr h)
  rw [hx]
  exact List.getLast_mem hne

/-- The manifest selected by `update_manifest` is one of the directory's
files, and its name carries the `_input` suffix. -/
theorem findLastInput_mem {dir : ManifestDir} {fname : String}
    {m : BaseAssetManifest} (h : findLastInput dir = some (fname, m)) :
    (fname, m) ∈ dir.files ∧ pyEndsWith fname "_input" = true := by
  unfold findLastInput at h
  have hmem := getLast?_mem_of_eq_some h
  rw [List.mem_filter] at hmem
  exact hmem

/-- Shape of a successful `update_manifest` run: the selected file, the
merged manifest, and the directory with that file overwritten. -/
theorem update_manifest_ok {dir : ManifestDir} {cs : List Change}
    {m1 : BaseAssetManifest} {dir1 : ManifestDir}
    (h : update_manifest dir cs = .ok (m1, dir1)) :
    ∃ fname m, findLastInput dir = some (fname, m)
      ∧ m1 = { m with paths := (mergeDict (dictOfPaths m.paths) cs).map (·.2) }
      ∧ dir1 = ⟨dir.files.map (fun f => if f.1 = fname then (fname, m1) else f)⟩ := by
  unfold update_manifest at h
  cases hf : findLastInput dir with
  | none => rw [hf] at h; cases h
  | some fm =>
    obtain ⟨fname, m⟩ := fm
    rw [hf] at h
    simp only [Except.ok.injEq, Prod.mk.injEq] at h
    obtain ⟨h1, h2⟩ := h
    subst h1
    subst h2
    exact ⟨fname, m, rfl, rfl, rfl⟩

/-- Claim C8 (amended): `update_manifest` is not pure — it persists its
result by overwriting the selected manifest file in place.  The returned
manifest keeps the decoded file's metadata, the overwritten file holds
exactly the returned manifest, and every other file of the directory is
left untouched (same names, other entries unchanged). -/
theorem c8_overwrites_selected_file_only {dir : ManifestDir}
    {cs : List Change} {m1 : BaseAssetManifest} {dir1 : ManifestDir}
    {fname : String} {m : BaseAssetManifest}
    (hlast : findLastInput dir = some (fname, m))
    (h : update_manifest dir cs = .ok (m1, dir1)) :
    dir1.files.map (·.1) = dir.files.map (·.1)
    ∧ (fname, m1) ∈ dir1.files
    ∧ (∀ f ∈ dir.files, f.1 ≠ fname → f ∈ dir1.files)
    ∧ m1.version = m.version := by
  obtain ⟨fname', m', hlast', hm1, hdir1⟩ := update_manifest_ok h
  rw [hlast'] at hlast
  have hpair : (fname', m') = (fname, m) := by
    injection hlast
  have hfe : fname' = fname := congrArg Prod.fst hpair
  have hme : m' = m := congrArg Prod.snd hpair
  subst hfe
  subst hme
  refine ⟨?_, ?_, ?_, ?_⟩
  · rw [hdir1]
    simp only [List.map_map]
    apply List.map_congr_left
    intro f _
    by_cases hfn : f.1 = fname'
    · simp [Function.comp, hfn]
    · simp [Function.comp, hfn]
  · rw [hdir1]
    have hmem := (findLastInput_mem hlast').1
    have hmapped := List.mem_map_of_mem
      (fun f => if f.1 = fname' then (fname', m1) else f) hmem
    simpa using hmapped
  · intro f hf hfn
    rw [hdir1]
    have hmapped := List.mem_map_of_mem
      (fun g => if g.1 = fname' then (fname', m1) else g) hf
    simpa [hfn] using hmapped
  · rw [hm1]

/-- Witness for C8 (amended) at a concrete directory and change list. -/
theorem c8_overwrites_selected_file_only_witness :
    (⟨[("m_input", ⟨"v1", [⟨"a.txt", "h2", 1, 1⟩]⟩)]⟩ : ManifestDir).files.map (·.1)
        = (⟨[("m_input", ⟨"v1", [⟨"a.txt", "h1", 1, 1⟩]⟩)]⟩ : ManifestDir).files.map (·.1)
    ∧ ("m_input", (⟨"v1", [⟨"a.txt", "h2", 1, 1⟩]⟩ : BaseAssetManifest)) ∈
        (⟨[("m_input", ⟨"v1", [⟨"a.txt", "h2", 1, 1⟩]⟩)]⟩ : ManifestDir).files
    ∧ (∀ f ∈ (⟨[("m_input", ⟨"v1", [⟨"a.txt", "h1", 1, 1⟩]⟩)]⟩ : ManifestDir).files,
        f.1 ≠ "m_input" → f ∈ (⟨[("m_input", ⟨"v1", [⟨"a.txt", "h2", 1, 1⟩]⟩)]⟩ : ManifestDir).files)
    ∧ (⟨"v1", [⟨"a.txt", "h2", 1, 1⟩]⟩ : BaseAssetManifest).version
        = (⟨"v1", [⟨"a.txt", "h1", 1, 1⟩]⟩ : BaseAssetManifest).version :=
  @c8_overwrites_selected_file_only
    ⟨[("m_input", ⟨"v1", [⟨"a.txt", "h1", 1, 1⟩]⟩)]⟩
    [(FileStatus.MODIFIED, ⟨"a.txt", "h2", 1, 1⟩)]
    ⟨"v1", [⟨"a.txt", "h2", 1, 1⟩]⟩
    ⟨[("m_input", ⟨"v1", [⟨"a.txt", "h2", 1, 1⟩]⟩)]⟩
    "m_input" ⟨"v1", [⟨"a.txt", "h1", 1, 1⟩]⟩ rfl rfl

/-- Counterexample to C8 as stated: a concrete run of `update_manifest`
whose output directory state differs from the input — the stored input
manifest has been mutated (overwritten) in place, so the caller cannot
compare the old and the new persisted manifest after the call. -/
theorem c8_counterexample :
    update_manifest ⟨[("m_input", ⟨"v1", [⟨"a.txt", "h1", 1, 1⟩]⟩)]⟩
        [(FileStatus.MODIFIED, ⟨"a.txt", "h2", 1, 1⟩)]
      = .ok (⟨"v1", [⟨"a.txt", "h2", 1, 1⟩]⟩,
          ⟨[("m_input", ⟨"v1", [⟨"a.txt", "h2", 1, 1⟩]⟩)]⟩)
    ∧ (⟨[("m_input", ⟨"v1", [⟨"a.txt", "h2", 1, 1⟩]⟩)]⟩ : ManifestDir)
      ≠ ⟨[("m_input", ⟨"v1", [⟨"a.txt", "h1", 1, 1⟩]⟩)]⟩ := by
  constructor
  · rfl
  · decide

/-- Unfolding: merging an empty change list is the identity. -/
theorem mergeDict_nil (d : PathDict) : mergeDict d [] = d := rfl

/-- Unfolding: merging a non-empty change list processes its head first. -/
theorem mergeDict_cons (d : PathDict) (c : Change) (cs : List Change) :
    mergeDict d (c :: cs) = mergeDict (dictStep d c) cs := rfl

/-- `setHash` keeps the key sequence of the dict. -/
theorem keys_setHash (d : PathDict) (k h : String) :
    (setHash d k h).map (·.1) = d.map (·.1) := by
  unfold setHash
  rw [List.map_map]
  apply List.map_congr_left
  intro kv _
  by_cases hk : kv.1 = k
  · simp [Function.comp, hk]
  · simp [Function.comp, hk]

/-- Key sequence after one merge step: unchanged on an update, the new
key appended on an insert. -/
theorem keys_dictStep (d : PathDict) (c : Change) :
    (dictStep d c).map (·.1) =
      if c.2.path ∈ d.map (·.1) then d.map (·.1)
      else d.map (·.1) ++ [c.2.path] := by
  unfold dictStep
  by_cases hm : c.2.path ∈ d.map (·.1)
  · rw [if_pos hm, if_pos hm, keys_setHash]
  · rw [if_neg hm, if_neg hm, List.map_append]
    rfl

/-- A merge step never removes a key. -/
theorem mem_keys_dictStep {d : PathDict} {c : Change} {k : String}
    (hk : k ∈ d.map (·.1)) : k ∈ (dictStep d c).map (·.1) := by
  rw [keys_dictStep]
  by_cases hm : c.2.path ∈ d.map (·.1)
  · rw [if_pos hm]; exact hk
  · rw [if_neg hm]; exact List.mem_append_left _ hk

/-- After a merge step, the processed change's key is present. -/
theorem mem_keys_dictStep_self (d : PathDict) (c : Change) :
    c.2.path ∈ (dictStep d c).map (·.1) := by
  rw [keys_dictStep]
  by_cases hm : c.2.path ∈ d.map (·.1)
  · rw [if_pos hm]; exact hm
  · rw [if_neg hm]; exact List.mem_append_right _ (by simp)

/-- The merge never removes a key. -/
theorem mem_keys_mergeDict (cs : List Change) :
    ∀ (d : PathDict) {k : String}, k ∈ d.map (·.1) →
      k ∈ (mergeDict d cs).map (·.1) := by
  induction cs with
  | nil => intro d k hk; exact hk
  | cons c cs ih =>
    intro d k hk
    rw [mergeDict_cons]
    exact ih _ (mem_keys_dictStep hk)

/-- Every processed change's key is present in the merged dict. -/
theorem assigned_mem_keys_mergeDict {cs : List Change} {c : Change}
    (hc : c ∈ cs) (d : PathDict) :
    c.2.path ∈ (mergeDict d cs).map (·.1) := by
  induction cs generalizing d with
  | nil => cases hc
  | cons c0 cs ih =>
    rw [mergeDict_cons]
    rcases List.mem_cons.mp hc with h | h
    · subst h
      exact mem_keys_mergeDict cs _ (mem_keys_dictStep_self d c)
    · exact ih h _

/-- Entries are equal when all four fields agree. -/
theorem entry_ext {v w : BaseManifestPath} (h1 : v.path = w.path)
    (h2 : v.hash = w.hash) (h3 : v.size = w.size) (h4 : v.mtime = w.mtime) :
    v = w := by
  cases v; cases w
  simp_all

/-- Overwriting the hash with its current value changes nothing. -/
theorem hash_set_self {v : BaseManifestPath} {h : String} (hv : v.hash = h) :
    ({ v with hash := h } : BaseManifestPath) = v := by
  cases v
  simp_all

/-- `setHash` is the identity when every entry at the key already holds
the written hash. -/
theorem setHash_eq_self {k h : String} :
    ∀ {d : PathDict}, (∀ v, (k, v) ∈ d → v.hash = h) → setHash d k h = d := by
  intro d
  induction d with
  | nil => intro _; rfl
  | cons kv d ih =>
    intro hd
    obtain ⟨k1, v1⟩ := kv
    simp only [setHash, List.map_cons]
    have htail : setHash d k h = d :=
      ih (fun v hv => hd v (List.mem_cons_of_mem _ hv))
    simp only [setHash] at htail
    rw [htail]
    by_cases hk : k1 = k
    · rw [if_pos hk]
      have hv1 : v1.hash = h := by
        apply hd v1
        rw [← hk]
        exact List.mem_cons_self _ _
      rw [hash_set_self hv1]
    · rw [if_neg hk]

/-- Frame: a merge step leaves entries at other keys in place. -/
theorem mem_dictStep_of_ne {d : PathDict} {c : Change} {k : String}
    {v : BaseManifestPath} (hne : c.2.path ≠ k) (hm : (k, v) ∈ d) :
    (k, v) ∈ dictStep d c := by
  unfold dictStep
  by_cases hmem : c.2.path ∈ d.map (·.1)
  · rw [if_pos hmem]
    unfold setHash
    have himg : (fun kv : String × BaseManifestPath =>
        if kv.1 = c.2.path then (kv.1, { kv.2 with hash := c.2.hash }) else kv)
          (k, v) = (k, v) := by
      simp [Ne.symm hne]
    rw [← himg]
    exact List.mem_map_of_mem _ hm
  · rw [if_neg hmem]
    exact List.mem_append_left _ hm

/-- Frame: the whole merge leaves entries at untouched keys in place. -/
theorem mem_mergeDict_frame :
    ∀ (cs : List Change) (d : PathDict) {k : String} {v : BaseManifestPath},
      (∀ c ∈ cs, c.2.path ≠ k) → (k, v) ∈ d → (k, v) ∈ mergeDict d cs := by
  intro cs
  induction cs with
  | nil => intro d k v _ hm; exact hm
  | cons c cs ih =>
    intro d k v hall hm
    rw [mergeDict_cons]
    exact ih _ (fun c' hc' => hall c' (List.mem_cons_of_mem _ hc'))
      (mem_dictStep_of_ne (hall c (List.mem_cons_self _ _)) hm)

/-- Unfolding `lastAssign?`: a later assignment wins. -/
theorem lastAssign?_cons_of_some {c : Change} {cs : List Change}
    {k h : String} (hcs : lastAssign? cs k = some h) :
    lastAssign? (c :: cs) k = some h := by
  simp [lastAssign?, hcs]

/-- Unfolding `lastAssign?`: with no later assignment, the head decides. -/
theorem lastAssign?_cons_of_none {c : Change} {cs : List Change}
    {k : String} (hcs : lastAssign? cs k = none) :
    lastAssign? (c :: cs) k =
      if c.2.path = k then some c.2.hash else none := by
  simp [lastAssign?, hcs]

/-- No last assignment means no change touches the key. -/
theorem lastAssign?_none {k : String} :
    ∀ {cs : List Change}, lastAssign? cs k = none →
      ∀ c ∈ cs, c.2.path ≠ k := by
  intro cs
  induction cs with
  | nil => intro _ c hc; cases hc
  | cons c0 cs ih =>
    intro h c hc
    cases hcs : lastAssign? cs k with
    | some h' => rw [lastAssign?_cons_of_some hcs] at h; cases h
    | none =>
      rw [lastAssign?_cons_of_none hcs] at h
      by_cases hc0 : c0.2.path = k
      · rw [if_pos hc0] at h; cases h
      · rcases List.mem_cons.mp hc with rfl | hmem
        · exact hc0
        · exact ih hcs c hmem

/-- A last assignment to a key means the change list assigns that key. -/
theorem lastAssign?_assigned {k : String} :
    ∀ {cs : List Change} {h : String},
      lastAssign? cs k = some h → assigned cs k := by
  intro cs
  induction cs with
  | nil => intro h hla; cases hla
  | cons c0 cs ih =>
    intro h hla
    cases hcs : lastAssign? cs k with
    | some h' =>
      obtain ⟨c, hc, hcp⟩ := ih hcs
      exact ⟨c, List.mem_cons_of_mem _ hc, hcp⟩
    | none =>
      rw [lastAssign?_cons_of_none hcs] at hla
      by_cases hc0 : c0.2.path = k
      · exact ⟨c0, List.mem_cons_self _ _, hc0⟩
      · rw [if_neg hc0] at hla; cases hla

/-- Frame for the hash value: if no change touches key `k` and all
entries at `k` carry hash `h`, the merged dict's entries at `k` still
carry `h`. -/
theorem hash_frame {k h : String} :
    ∀ (cs : List Change) (d : PathDict), (∀ c ∈ cs, c.2.path ≠ k) →
      (∀ v, (k, v) ∈ d → v.hash = h) →
      ∀ v, (k, v) ∈ mergeDict d cs → v.hash = h := by
  intro cs
  induction cs with
  | nil => intro d _ hd v hv; exact hd v hv
  | cons c cs ih =>
    intro d hall hd v hv
    rw [mergeDict_cons] at hv
    refine ih _ (fun c' hc' => hall c' (List.mem_cons_of_mem _ hc')) ?_ v hv
    intro w hw
    have hcne : c.2.path ≠ k := hall c (List.mem_cons_self _ _)
    unfold dictStep at hw
    by_cases hmem : c.2.path ∈ d.map (·.1)
    · rw [if_pos hmem] at hw
      unfold setHash at hw
      obtain ⟨kv0, hkv0, heq⟩ := List.mem_map.mp hw
      by_cases hk0 : kv0.1 = c.2.path
      · rw [if_pos hk0] at heq
        have hfst : kv0.1 = k := congrArg Prod.fst heq
        exact absurd (hk0.symm.trans hfst) hcne
      · rw [if_neg hk0] at heq
        rw [heq] at hkv0
        exact hd w hkv0
    · rw [if_neg hmem] at hw
      rcases List.mem_append.mp hw with hl | hr
      · exact hd w hl
      · have hsing := List.mem_singleton.mp hr
        exact absurd (congrArg Prod.fst hsing).symm hcne

/-- In the merged dict, entries at a key the change list assigns carry
the hash of the last assignment to that key. -/
theorem hash_mergeDict_lastAssign {k h : String} :
    ∀ (cs : List Change) (d : PathDict), lastAssign? cs k = some h →
      ∀ v, (k, v) ∈ mergeDict d cs → v.hash = h := by
  intro cs
  induction cs with
  | nil => intro d hla; cases hla
  | cons c cs ih =>
    intro d hla v hv
    rw [mergeDict_cons] at hv
    cases hcs : lastAssign? cs k with
    | some h' =>
      rw [lastAssign?_cons_of_some hcs] at hla
      have hh : h' = h := by injection hla
      rw [hh] at hcs
      exact ih _ hcs v hv
    | none =>
      rw [lastAssign?_cons_of_none hcs] at hla
      by_cases hck : c.2.path = k
      · rw [if_pos hck] at hla
        have hh : c.2.hash = h := by injection hla
        refine hash_frame cs (dictStep d c) (lastAssign?_none hcs) ?_ v hv
        intro w hw
        rw [← hh]
        subst hck
        unfold dictStep at hw
        by_cases hmem : c.2.path ∈ d.map (·.1)
        · rw [if_pos hmem] at hw
          unfold setHash at hw
          obtain ⟨kv0, hkv0, heq⟩ := List.mem_map.mp hw
          by_cases hk0 : kv0.1 = c.2.path
          · rw [if_pos hk0] at heq
            have hsnd : ({ kv0.2 with hash := c.2.hash } : BaseManifestPath) = w :=
              congrArg Prod.snd heq
            rw [← hsnd]
          · rw [if_neg hk0] at heq
            exact absurd (congrArg Prod.fst heq) hk0
        · rw [if_neg hmem] at hw
          rcases List.mem_append.mp hw with hl | hr
          · exact absurd (List.mem_map_of_mem (·.1) hl) hmem
          · have hsing := List.mem_singleton.mp hr
            have hwc : w = c.2 := congrArg Prod.snd hsing
            rw [hwc]
      · rw [if_neg hck] at hla; cases hla

/-- Related dicts have the same key sequence. -/
theorem eqvAt_keys {cs : List Change} :
    ∀ {e e' : PathDict}, List.Forall₂ (eqvAt cs) e e' →
      e.map (·.1) = e'.map (·.1) := by
  intro e e' h
  induction h with
  | nil => rfl
  | cons hab _ ihtail =>
    simp only [List.map_cons]
    rw [hab.1, ihtail]

/-- Against an empty change list, relatedness is equality. -/
theorem forall₂_eqvAt_nil_eq :
    ∀ {e e' : PathDict}, List.Forall₂ (eqvAt []) e e' → e = e' := by
  intro e e' h
  induction h with
  | nil => rfl
  | @cons a b l1 l2 hab _ ih =>
    obtain ⟨h1, h2, h3, h4, h5⟩ := hab
    rcases h5 with h5 | ⟨c, hc, _⟩
    · rw [ih, Prod.ext h1 (entry_ext h2 h5 h3 h4)]
    · cases hc

/-- Relatedness at a key the head change does not touch survives
dropping that head. -/
theorem eqvAt_weaken {c : Change} {cs : List Change}
    {a b : String × BaseManifestPath} (hne : a.1 ≠ c.2.path)
    (h : eqvAt (c :: cs) a b) : eqvAt cs a b := by
  obtain ⟨h1, h2, h3, h4, h5⟩ := h
  refine ⟨h1, h2, h3, h4, ?_⟩
  rcases h5 with h5 | ⟨c', hc', hcp⟩
  · exact Or.inl h5
  · rcases List.mem_cons.mp hc' with rfl | hmem
    · exact absurd hcp.symm hne
    · exact Or.inr ⟨c', hmem, hcp⟩

/-- Overwriting the head change's key on both sides preserves
relatedness against the remaining changes. -/
theorem setHash_forall₂ {c : Change} {cs : List Change} :
    ∀ {e e' : PathDict}, List.Forall₂ (eqvAt (c :: cs)) e e' →
      List.Forall₂ (eqvAt cs) (setHash e c.2.path c.2.hash)
        (setHash e' c.2.path c.2.hash) := by
  intro e e' h
  induction h with
  | nil => exact List.Forall₂.nil
  | @cons a b l1 l2 hab _ ih =>
    simp only [setHash, List.map_cons]
    simp only [setHash] at ih
    refine List.Forall₂.cons ?_ ih
    by_cases hk : a.1 = c.2.path
    · rw [if_pos hk, if_pos (hab.1.symm.trans hk)]
      exact ⟨hab.1, hab.2.1, hab.2.2.1, hab.2.2.2.1, Or.inl rfl⟩
    · rw [if_neg hk, if_neg (fun hb => hk (hab.1.trans hb))]
      exact eqvAt_weaken hk hab

/-- Relatedness weakens to the tail change list on dicts whose keys the
head change does not touch. -/
theorem forall₂_eqvAt_weaken {c : Change} {cs : List Change} :
    ∀ {e e' : PathDict}, List.Forall₂ (eqvAt (c :: cs)) e e' →
      (∀ a ∈ e, a.1 ≠ c.2.path) → List.Forall₂ (eqvAt cs) e e' := by
  intro e e' h
  induction h with
  | nil => intro _; exact List.Forall₂.nil
  | @cons a b l1 l2 hab _ ih =>
    intro hall
    exact List.Forall₂.cons
      (eqvAt_weaken (hall a (List.mem_cons_self _ _)) hab)
      (ih (fun x hx => hall x (List.mem_cons_of_mem _ hx)))

/-- Overwriting the hash at a key the change list assigns relates the
result to the original dict. -/
theorem setHash_self_forall₂ {cs : List Change} {k h : String}
    (ha : assigned cs k) :
    ∀ (e : PathDict), List.Forall₂ (eqvAt cs) (setHash e k h) e := by
  intro e
  induction e with
  | nil => exact List.Forall₂.nil
  | cons kv e ih =>
    simp only [setHash, List.map_cons]
    simp only [setHash] at ih
    refine List.Forall₂.cons ?_ ih
    by_cases hk : kv.1 = k
    · rw [if_pos hk]
      exact ⟨rfl, rfl, rfl, rfl, Or.inr (by rw [hk]; exact ha)⟩
    · rw [if_neg hk]
      exact ⟨rfl, rfl, rfl, rfl, Or.inl rfl⟩

/-- The merge loop maps related dicts to the same result: hash
differences at assigned keys are overwritten before the loop ends. -/
theorem mergeDict_congr :
    ∀ (cs : List Change) {e e' : PathDict},
      List.Forall₂ (eqvAt cs) e e' → mergeDict e cs = mergeDict e' cs := by
  intro cs
  induction cs with
  | nil => intro e e' h; exact forall₂_eqvAt_nil_eq h
  | cons c cs ih =>
    intro e e' h
    rw [mergeDict_cons, mergeDict_cons]
    apply ih
    unfold dictStep
    have hkeys := eqvAt_keys h
    by_cases hm : c.2.path ∈ e.map (·.1)
    · rw [if_pos hm, if_pos (hkeys ▸ hm)]
      exact setHash_forall₂ h
    · rw [if_neg hm, if_neg (hkeys ▸ hm)]
      refine List.rel_append (forall₂_eqvAt_weaken h ?_)
        (List.Forall₂.cons ⟨rfl, rfl, rfl, rfl, Or.inl rfl⟩ List.Forall₂.nil)
      intro a ha hap
      exact hm (hap ▸ List.mem_map_of_mem (·.1) ha)

/-- A dict that already contains every assigned key with the final hash
of each is a fixed point of the merge loop. -/
theorem mergeDict_fixed :
    ∀ (cs : List Change) (e : PathDict),
      (∀ c ∈ cs, c.2.path ∈ e.map (·.1)) →
      (∀ k h, lastAssign? cs k = some h → ∀ v, (k, v) ∈ e → v.hash = h) →
      mergeDict e cs = e := by
  intro cs
  induction cs with
  | nil => intro e _ _; rfl
  | cons c cs ih =>
    intro e hkeys hfin
    rw [mergeDict_cons]
    have hmem : c.2.path ∈ e.map (·.1) := hkeys c (List.mem_cons_self _ _)
    have hstep : dictStep e c = setHash e c.2.path c.2.hash := by
      rw [dictStep, if_pos hmem]
    cases hcs : lastAssign? cs c.2.path with
    | some h' =>
      have hcongr : mergeDict (dictStep e c) cs = mergeDict e cs := by
        apply mergeDict_congr
        rw [hstep]
        exact setHash_self_forall₂ (lastAssign?_assigned hcs) e
      rw [hcongr]
      exact ih e (fun c' hc' => hkeys c' (List.mem_cons_of_mem _ hc'))
        (fun k h hla => hfin k h (lastAssign?_cons_of_some hla))
    | none =>
      have hfix : dictStep e c = e := by
        rw [hstep]
        apply setHash_eq_self
        intro v hv
        have hla : lastAssign? (c :: cs) c.2.path = some c.2.hash := by
          rw [lastAssign?_cons_of_none hcs]
          simp
        exact hfin c.2.path c.2.hash hla v hv
      rw [hfix]
      exact ih e (fun c' hc' => hkeys c' (List.mem_cons_of_mem _ hc'))
        (fun k h hla => hfin k h (lastAssign?_cons_of_some hla))

/-- The merge loop is idempotent on the dict. -/
theorem mergeDict_idem (d : PathDict) (cs : List Change) :
    mergeDict (mergeDict d cs) cs = mergeDict d cs :=
  mergeDict_fixed cs _ (fun _ hc => assigned_mem_keys_mergeDict hc d)
    (fun _ _ hla => hash_mergeDict_lastAssign cs d hla)

/-- `setHash` keeps the key-equals-path invariant. -/
theorem invKP_setHash {d : PathDict} {k h : String}
    (hd : ∀ kv ∈ d, kv.1 = kv.2.path) :
    ∀ kv ∈ setHash d k h, kv.1 = kv.2.path := by
  intro kv hkv
  unfold setHash at hkv
  obtain ⟨kv0, hkv0, heq⟩ := List.mem_map.mp hkv
  by_cases hk : kv0.1 = k
  · rw [if_pos hk] at heq
    rw [← heq]
    exact hd kv0 hkv0
  · rw [if_neg hk] at heq
    rw [← heq]
    exact hd kv0 hkv0

/-- A merge step keeps the key-equals-path invariant. -/
theorem invKP_dictStep {d : PathDict} {c : Change}
    (hd : ∀ kv ∈ d, kv.1 = kv.2.path) :
    ∀ kv ∈ dictStep d c, kv.1 = kv.2.path := by
  intro kv hkv
  unfold dictStep at hkv
  by_cases hm : c.2.path ∈ d.map (·.1)
  · rw [if_pos hm] at hkv
    exact invKP_setHash hd kv hkv
  · rw [if_neg hm] at hkv
    rcases List.mem_append.mp hkv with hl | hr
    · exact hd kv hl
    · rw [List.mem_singleton.mp hr]

/-- The merge keeps the key-equals-path invariant. -/
theorem invKP_mergeDict :
    ∀ (cs : List Change) (d : PathDict), (∀ kv ∈ d, kv.1 = kv.2.path) →
      ∀ kv ∈ mergeDict d cs, kv.1 = kv.2.path := by
  intro cs
  induction cs with
  | nil => intro d hd; exact hd
  | cons c cs ih =>
    intro d hd
    rw [mergeDict_cons]
    exact ih _ (invKP_dictStep hd)

/-- A dict assignment keeps the key-equals-path invariant. -/
theorem invKP_dictInsert {d : PathDict} {p : BaseManifestPath}
    (hd : ∀ kv ∈ d, kv.1 = kv.2.path) :
    ∀ kv ∈ dictInsert d p, kv.1 = kv.2.path := by
  intro kv hkv
  unfold dictInsert at hkv
  by_cases hm : p.path ∈ d.map (·.1)
  · rw [if_pos hm] at hkv
    obtain ⟨kv0, hkv0, heq⟩ := List.mem_map.mp hkv
    by_cases hk : kv0.1 = p.path
    · rw [if_pos hk] at heq
      rw [← heq]
    · rw [if_neg hk] at heq
      rw [← heq]
      exact hd kv0 hkv0
  · rw [if_neg hm] at hkv
    rcases List.mem_append.mp hkv with hl | hr
    · exact hd kv hl
    · rw [List.mem_singleton.mp hr]

/-- The dict comprehension satisfies the key-equals-path invariant. -/
theorem invKP_dictOfPaths (ps : List BaseManifestPath) :
    ∀ kv ∈ dictOfPaths ps, kv.1 = kv.2.path := by
  unfold dictOfPaths
  suffices h : ∀ (acc : PathDict), (∀ kv ∈ acc, kv.1 = kv.2.path) →
      ∀ kv ∈ ps.foldl dictInsert acc, kv.1 = kv.2.path by
    exact h [] (fun kv hkv => absurd hkv (List.not_mem_nil kv))
  induction ps with
  | nil => intro acc hacc; exact hacc
  | cons p ps ih =>
    intro acc hacc
    rw [List.foldl_cons]
    exact ih _ (invKP_dictInsert hacc)

/-- A dict assignment's key sequence: unchanged on update, the new key
appended on insert. -/
theorem keys_dictInsert (d : PathDict) (p : BaseManifestPath) :
    (dictInsert d p).map (·.1) =
      if p.path ∈ d.map (·.1) then d.map (·.1)
      else d.map (·.1) ++ [p.path] := by
  unfold dictInsert
  by_cases hm : p.path ∈ d.map (·.1)
  · rw [if_pos hm, if_pos hm, List.map_map]
    apply List.map_congr_left
    intro kv _
    by_cases hk : kv.1 = p.path
    · simp [Function.comp, hk]
    · simp [Function.comp, hk]
  · rw [if_neg hm, if_neg hm, List.map_append]
    rfl

/-- A dict assignment keeps the keys duplicate-free. -/
theorem nodupKeys_dictInsert {d : PathDict} {p : BaseManifestPath}
    (hd : (d.map (·.1)).Nodup) : ((dictInsert d p).map (·.1)).Nodup := by
  rw [keys_dictInsert]
  by_cases hm : p.path ∈ d.map (·.1)
  · rw [if_pos hm]; exact hd
  · rw [if_neg hm]
    refine List.Nodup.append hd (List.nodup_singleton _) ?_
    intro x hx hx2
    exact hm ((List.mem_singleton.mp hx2) ▸ hx)

/-- The dict comprehension's keys are duplicate-free. -/
theorem nodupKeys_dictOfPaths (ps : List BaseManifestPath) :
    ((dictOfPaths ps).map (·.1)).Nodup := by
  unfold dictOfPaths
  suffices h : ∀ (acc : PathDict), (acc.map (·.1)).Nodup →
      ((ps.foldl dictInsert acc).map (·.1)).Nodup by
    exact h [] List.nodup_nil
  induction ps with
  | nil => intro acc hacc; exact hacc
  | cons p ps ih =>
    intro acc hacc
    rw [List.foldl_cons]
    exact ih _ (nodupKeys_dictInsert hacc)

/-- A merge step keeps the keys duplicate-free. -/
theorem nodupKeys_dictStep {d : PathDict} {c : Change}
    (hd : (d.map (·.1)).Nodup) : ((dictStep d c).map (·.1)).Nodup := by
  rw [keys_dictStep]
  by_cases hm : c.2.path ∈ d.map (·.1)
  · rw [if_pos hm]; exact hd
  · rw [if_neg hm]
    refine List.Nodup.append hd (List.nodup_singleton _) ?_
    intro x hx hx2
    exact hm ((List.mem_singleton.mp hx2) ▸ hx)

/-- The merge keeps the keys duplicate-free. -/
theorem nodupKeys_mergeDict :
    ∀ (cs : List Change) (d : PathDict), (d.map (·.1)).Nodup →
      ((mergeDict d cs).map (·.1)).Nodup := by
  intro cs
  induction cs with
  | nil => intro d hd; exact hd
  | cons c cs ih =>
    intro d hd
    rw [mergeDict_cons]
    exact ih _ (nodupKeys_dictStep hd)

/-- Building the dict from entries with pairwise distinct paths only
appends: the comprehension is the association list of the entries. -/
theorem foldl_dictInsert_append :
    ∀ (ps : List BaseManifestPath) (acc : PathDict),
      (∀ p ∈ ps, p.path ∉ acc.map (·.1)) → (ps.map (·.path)).Nodup →
      ps.foldl dictInsert acc = acc ++ ps.map (fun p => (p.path, p)) := by
  intro ps
  induction ps with
  | nil => intro acc _ _; simp
  | cons p ps ih =>
    intro acc hdisj hnd
    rw [List.map_cons] at hnd
    have hnp : p.path ∉ ps.map (·.path) := (List.nodup_cons.mp hnd).1
    have hstep : dictInsert acc p = acc ++ [(p.path, p)] := by
      rw [dictInsert, if_neg (hdisj p (List.mem_cons_self _ _))]
    have hdisj2 : ∀ q ∈ ps, q.path ∉ (acc ++ [(p.path, p)]).map (·.1) := by
      intro q hq
      rw [List.map_append]
      intro hmem
      rcases List.mem_append.mp hmem with hl | hr
      · exact hdisj q (List.mem_cons_of_mem _ hq) hl
      · have hqp : q.path = p.path := by simpa using hr
        exact hnp (hqp ▸ List.mem_map_of_mem (·.path) hq)
    rw [List.foldl_cons, hstep, ih _ hdisj2 (List.nodup_cons.mp hnd).2,
      List.map_cons, List.append_assoc, List.singleton_append]

/-- Rebuilding the dict from its own values gives the dict back. -/
theorem dictOfPaths_rebuild {d : PathDict}
    (hkp : ∀ kv ∈ d, kv.1 = kv.2.path) (hnd : (d.map (·.1)).Nodup) :
    dictOfPaths (d.map (·.2)) = d := by
  unfold dictOfPaths
  have hkeys : (d.map (·.2)).map (·.path) = d.map (·.1) := by
    rw [List.map_map]
    exact List.map_congr_left (fun kv hkv => (hkp kv hkv).symm)
  have hnd2 : ((d.map (·.2)).map (·.path)).Nodup := by
    rw [hkeys]; exact hnd
  rw [foldl_dictInsert_append (d.map (·.2)) [] (by simp) hnd2,
    List.nil_append, List.map_map]
  have : ∀ kv ∈ d, ((fun p : BaseManifestPath => (p.path, p)) ∘ (·.2)) kv = kv := by
    intro kv hkv
    exact Prod.ext (hkp kv hkv).symm rfl
  rw [List.map_congr_left this]
  simp

/-- Evaluating `update_manifest` once the selected file is known. -/
theorem update_manifest_eq {dir : ManifestDir} {cs : List Change}
    {fname : String} {m : BaseAssetManifest}
    (hlast : findLastInput dir = some (fname, m)) :
    update_manifest dir cs =
      .ok ({ m with paths := (mergeDict (dictOfPaths m.paths) cs).map (·.2) },
        ⟨dir.files.map (fun f => if f.1 = fname then
          (fname, { m with paths := (mergeDict (dictOfPaths m.paths) cs).map (·.2) })
          else f)⟩) := by
  unfold update_manifest
  rw [hlast]

/-- Overwriting the selected file keeps it selected, now holding the new
manifest. -/
theorem findLastInput_overwrite {dir : ManifestDir} {fname : String}
    {m m1 : BaseAssetManifest}
    (hlast : findLastInput dir = some (fname, m)) :
    findLastInput
        ⟨dir.files.map (fun f => if f.1 = fname then (fname, m1) else f)⟩
      = some (fname, m1) := by
  unfold findLastInput at hlast ⊢
  rw [List.filter_map]
  have hcomp : ((fun f : String × BaseAssetManifest => pyEndsWith f.1 "_input") ∘
      (fun f => if f.1 = fname then (fname, m1) else f)) =
      (fun f : String × BaseAssetManifest => pyEndsWith f.1 "_input") := by
    funext f
    by_cases hf : f.1 = fname
    · simp [Function.comp, hf]
    · simp [Function.comp, hf]
  rw [hcomp, List.getLast?_map, hlast]
  simp

/-- Claim C3: applying `update_manifest` twice with the same change list
yields the same resulting manifest (and the same manifest-directory
state) as applying it once. -/
theorem c3_update_manifest_idempotent {dir : ManifestDir} {cs : List Change}
    {m1 : BaseAssetManifest} {dir1 : ManifestDir}
    (h : update_manifest dir cs = .ok (m1, dir1)) :
    update_manifest dir1 cs = .ok (m1, dir1) := by
  obtain ⟨fname, m, hlast, hm1, hdir1⟩ := update_manifest_ok h
  have hlast1 : findLastInput dir1 = some (fname, m1) := by
    rw [hdir1]
    exact findLastInput_overwrite hlast
  have hkpD : ∀ kv ∈ mergeDict (dictOfPaths m.paths) cs, kv.1 = kv.2.path :=
    invKP_mergeDict cs _ (invKP_dictOfPaths m.paths)
  have hndD : ((mergeDict (dictOfPaths m.paths) cs).map (·.1)).Nodup :=
    nodupKeys_mergeDict cs _ (nodupKeys_dictOfPaths m.paths)
  have hpaths : m1.paths = (mergeDict (dictOfPaths m.paths) cs).map (·.2) := by
    rw [hm1]
  have hrebuild : dictOfPaths m1.paths = mergeDict (dictOfPaths m.paths) cs := by
    rw [hpaths]
    exact dictOfPaths_rebuild hkpD hndD
  rw [update_manifest_eq hlast1]
  have hm2 : { m1 with paths := (mergeDict (dictOfPaths m1.paths) cs).map (·.2) }
      = m1 := by
    rw [hrebuild, mergeDict_idem, ← hpaths]
  rw [hm2]
  have hfiles : dir1.files.map (fun f => if f.1 = fname then (fname, m1) else f)
      = dir1.files := by
    rw [hdir1]
    show (dir.files.map (fun f => if f.1 = fname then (fname, m1) else f)).map
        (fun f => if f.1 = fname then (fname, m1) else f)
      = dir.files.map (fun f => if f.1 = fname then (fname, m1) else f)
    rw [List.map_map]
    apply List.map_congr_left
    intro f _
    by_cases hf : f.1 = fname
    · simp [Function.comp, hf]
    · simp [Function.comp, hf]
  rw [hfiles]

/-- Witness for C3 at a concrete directory and change list. -/
theorem c3_update_manifest_idempotent_witness :
    update_manifest
        ⟨[("m_input", ⟨"v1", [⟨"a.txt", "h2", 1, 1⟩, ⟨"b.txt", "hb", 2, 2⟩]⟩)]⟩
        [(FileStatus.MODIFIED, ⟨"a.txt", "h2", 1, 1⟩),
          (FileStatus.NEW, ⟨"b.txt", "hb", 2, 2⟩)]
      = .ok (⟨"v1", [⟨"a.txt", "h2", 1, 1⟩, ⟨"b.txt", "hb", 2, 2⟩]⟩,
          ⟨[("m_input", ⟨"v1", [⟨"a.txt", "h2", 1, 1⟩, ⟨"b.txt", "hb", 2, 2⟩]⟩)]⟩) :=
  @c3_update_manifest_idempotent
    ⟨[("m_input", ⟨"v1", [⟨"a.txt", "h1", 1, 1⟩]⟩)]⟩
    [(FileStatus.MODIFIED, ⟨"a.txt", "h2", 1, 1⟩),
      (FileStatus.NEW, ⟨"b.txt", "hb", 2, 2⟩)]
    ⟨"v1", [⟨"a.txt", "h2", 1, 1⟩, ⟨"b.txt", "hb", 2, 2⟩]⟩
    ⟨[("m_input", ⟨"v1", [⟨"a.txt", "h2", 1, 1⟩, ⟨"b.txt", "hb", 2, 2⟩]⟩)]⟩
    rfl

/-- Each dict entry survives the merge: some entry with the same key,
path, size and mtime (at most the hash rewritten) is in the result. -/
theorem mem_mergeDict_survives :
    ∀ (cs : List Change) (d : PathDict) {k : String} {v : BaseManifestPath},
      (k, v) ∈ d → ∃ v', (k, v') ∈ mergeDict d cs ∧
        v'.path = v.path ∧ v'.size = v.size ∧ v'.mtime = v.mtime := by
  intro cs
  induction cs with
  | nil => intro d k v hm; exact ⟨v, hm, rfl, rfl, rfl⟩
  | cons c cs ih =>
    intro d k v hm
    rw [mergeDict_cons]
    by_cases hmem : c.2.path ∈ d.map (·.1)
    · have hstep : dictStep d c = setHash d c.2.path c.2.hash := by
        rw [dictStep, if_pos hmem]
      by_cases hk : k = c.2.path
      · have hm2 : (k, { v with hash := c.2.hash }) ∈ dictStep d c := by
          rw [hstep]
          unfold setHash
          exact List.mem_map.mpr ⟨(k, v), hm, by simp [hk]⟩
        obtain ⟨v', hv', h1, h2, h3⟩ := ih _ hm2
        exact ⟨v', hv', h1, h2, h3⟩
      · have hm2 : (k, v) ∈ dictStep d c := by
          rw [hstep]
          unfold setHash
          exact List.mem_map.mpr ⟨(k, v), hm, by simp [hk]⟩
        exact ih _ hm2
    · have hm2 : (k, v) ∈ dictStep d c := by
        rw [dictStep, if_neg hmem]
        exact List.mem_append_left _ hm
      exact ih _ hm2

/-- Claim C4: entries of the selected manifest whose path no change
touches appear in the merged manifest unchanged field-for-field; every
entry (in particular one whose file was detected as deleted, which the
default merge never removes) survives with its path, size and mtime
intact — only the hash can be overwritten. -/
theorem c4_merge_preservation {dir : ManifestDir} {cs : List Change}
    {m1 : BaseAssetManifest} {dir1 : ManifestDir} {fname : String}
    {m : BaseAssetManifest}
    (hnd : (m.paths.map (·.path)).Nodup)
    (hlast : findLastInput dir = some (fname, m))
    (h : update_manifest dir cs = .ok (m1, dir1)) :
    (∀ e ∈ m.paths, (∀ c ∈ cs, c.2.path ≠ e.path) → e ∈ m1.paths)
    ∧ (∀ e ∈ m.paths, ∃ e', e' ∈ m1.paths ∧ e'.path = e.path
        ∧ e'.size = e.size ∧ e'.mtime = e.mtime) := by
  obtain ⟨fname', m', hlast', hm1, hdir1⟩ := update_manifest_ok h
  rw [hlast'] at hlast
  have hpair : (fname', m') = (fname, m) := by injection hlast
  have hme : m' = m := congrArg Prod.snd hpair
  subst hme
  have hassoc : dictOfPaths m'.paths = m'.paths.map (fun p => (p.path, p)) := by
    unfold dictOfPaths
    rw [foldl_dictInsert_append m'.paths [] (by simp) hnd, List.nil_append]
  have hpaths : m1.paths = (mergeDict (dictOfPaths m'.paths) cs).map (·.2) := by
    rw [hm1]
  constructor
  · intro e he hall
    have hmem0 : (e.path, e) ∈ dictOfPaths m'.paths := by
      rw [hassoc]
      exact List.mem_map.mpr ⟨e, he, rfl⟩
    have hmem1 : (e.path, e) ∈ mergeDict (dictOfPaths m'.paths) cs :=
      mem_mergeDict_frame cs _ (fun c hc => hall c hc) hmem0
    rw [hpaths]
    exact List.mem_map.mpr ⟨(e.path, e), hmem1, rfl⟩
  · intro e he
    have hmem0 : (e.path, e) ∈ dictOfPaths m'.paths := by
      rw [hassoc]
      exact List.mem_map.mpr ⟨e, he, rfl⟩
    obtain ⟨v', hv', h1, h2, h3⟩ := mem_mergeDict_survives cs _ hmem0
    refine ⟨v', ?_, h1, h2, h3⟩
    rw [hpaths]
    exact List.mem_map.mpr ⟨(e.path, v'), hv', rfl⟩

/-- Witness for C4 at a concrete manifest and change list. -/
theorem c4_merge_preservation_witness :
    (∀ e ∈ (⟨"v1", [⟨"a.txt", "h1", 1, 1⟩, ⟨"b.txt", "hb", 2, 2⟩]⟩ :
        BaseAssetManifest).paths,
      (∀ c ∈ [((FileStatus.MODIFIED : FileStatus),
          (⟨"a.txt", "h2", 1, 5⟩ : BaseManifestPath))], c.2.path ≠ e.path) →
        e ∈ (⟨"v1", [⟨"a.txt", "h2", 1, 1⟩, ⟨"b.txt", "hb", 2, 2⟩]⟩ :
          BaseAssetManifest).paths)
    ∧ (∀ e ∈ (⟨"v1", [⟨"a.txt", "h1", 1, 1⟩, ⟨"b.txt", "hb", 2, 2⟩]⟩ :
        BaseAssetManifest).paths,
      ∃ e', e' ∈ (⟨"v1", [⟨"a.txt", "h2", 1, 1⟩, ⟨"b.txt", "hb", 2, 2⟩]⟩ :
          BaseAssetManifest).paths ∧ e'.path = e.path
        ∧ e'.size = e.size ∧ e'.mtime = e.mtime) :=
  @c4_merge_preservation
    ⟨[("m_input", ⟨"v1", [⟨"a.txt", "h1", 1, 1⟩, ⟨"b.txt", "hb", 2, 2⟩]⟩)]⟩
    [((FileStatus.MODIFIED : FileStatus), (⟨"a.txt", "h2", 1, 5⟩ : BaseManifestPath))]
    ⟨"v1", [⟨"a.txt", "h2", 1, 1⟩, ⟨"b.txt", "hb", 2, 2⟩]⟩
    ⟨[("m_input", ⟨"v1", [⟨"a.txt", "h2", 1, 1⟩, ⟨"b.txt", "hb", 2, 2⟩]⟩)]⟩
    "m_input" ⟨"v1", [⟨"a.txt", "h1", 1, 1⟩, ⟨"b.txt", "hb", 2, 2⟩]⟩
    (by decide) rfl rfl

/-- The cache is read only at the path being processed. -/
theorem hashResult_congr {hasher : String → Except IOErr String}
    {c c' : HashCache} {p : String} {fp : Fingerprint} (hc : c p = c' p) :
    hashResult hasher c p fp = hashResult hasher c' p fp := by
  unfold hashResult
  rw [hc]

/-- Reading the entry just stored is a cache hit on the stored hash. -/
theorem hashResult_store_self {hasher : String → Except IOErr String}
    {c : HashCache} {p : String} {fp : Fingerprint} {hv : String} :
    hashResult hasher (fun q => if q = p then some (fp, hv) else c q) p fp
      = .ok hv := by
  unfold hashResult
  simp

/-- Per-path classification depends on the cache only at that path. -/
theorem presult_congr (hasher : String → Except IOErr String)
    (fs : FileSystem) (record : String → Option String)
    {c c' : HashCache} {p : String} (hc : c p = c' p) :
    presult hasher fs record c p = presult hasher fs record c' p := by
  unfold presult process_input_path
  cases hfs : fs p with
  | none => rfl
  | some f =>
    simp only []
    rw [hashResult_congr hc]
    cases hh : hashResult hasher c' p (f.size, f.mtime) with
    | error e => simp only []
    | ok hv => simp only [Except.map]

/-- Shape of a successful per-path classification: either the path is
absent (`DELETED`, cache untouched) or present, hashed, and stored. -/
theorem process_ok_cases {hasher : String → Except IOErr String}
    {fs : FileSystem} {record : String → Option String} {c : HashCache}
    {p : String} {r : FileStatus × BaseManifestPath} {c1 : HashCache}
    (h : process_input_path hasher fs record c p = .ok (r, c1)) :
    (fs p = none ∧ r = (FileStatus.DELETED, ⟨p, (record p).getD "", 0, 0⟩)
      ∧ c1 = c)
    ∨ ∃ f hv, fs p = some f
        ∧ hashResult hasher c p (f.size, f.mtime) = .ok hv
        ∧ r = (statusOf record p hv, ⟨p, hv, f.size, f.mtime⟩)
        ∧ c1 = fun q => if q = p then some ((f.size, f.mtime), hv) else c q := by
  unfold process_input_path at h
  split at h
  · rename_i hfs
    simp only [Except.ok.injEq, Prod.mk.injEq] at h
    exact Or.inl ⟨hfs, h.1.symm, h.2.symm⟩
  · rename_i f hfs
    split at h
    · cases h
    · rename_i hv hh
      simp only [Except.ok.injEq, Prod.mk.injEq] at h
      exact Or.inr ⟨f, hv, hfs, hh, h.1.symm, h.2.symm⟩

/-- The classification seen in a successful run. -/
theorem presult_of_process {hasher : String → Except IOErr String}
    {fs : FileSystem} {record : String → Option String} {c : HashCache}
    {p : String} {r : FileStatus × BaseManifestPath} {c1 : HashCache}
    (h : process_input_path hasher fs record c p = .ok (r, c1)) :
    presult hasher fs record c p = .ok r := by
  unfold presult
  rw [h]
  rfl

/-- A successful classification stores nothing at other paths. -/
theorem process_store_ne {hasher : String → Except IOErr String}
    {fs : FileSystem} {record : String → Option String} {c : HashCache}
    {p : String} {r : FileStatus × BaseManifestPath} {c1 : HashCache}
    (h : process_input_path hasher fs record c p = .ok (r, c1)) :
    ∀ x, x ≠ p → c1 x = c x := by
  intro x hx
  rcases process_ok_cases h with ⟨_, _, hc1⟩ | ⟨f, hv, _, _, _, hc1⟩
  · rw [hc1]
  · rw [hc1]
    simp [hx]

/-- Re-classifying a path right after its run gives the same result: the
freshly stored fingerprint matches and returns the same hash. -/
theorem presult_after_store {hasher : String → Except IOErr String}
    {fs : FileSystem} {record : String → Option String} {c : HashCache}
    {p : String} {r : FileStatus × BaseManifestPath} {c1 : HashCache}
    (h : process_input_path hasher fs record c p = .ok (r, c1)) :
    presult hasher fs record c1 p = .ok r := by
  rcases process_ok_cases h with ⟨hfs, hr, hc1⟩ | ⟨f, hv, hfs, _, hr, hc1⟩
  · rw [hc1, hr]
    unfold presult process_input_path
    rw [hfs]
    rfl
  · rw [hc1, hr]
    unfold presult process_input_path
    rw [hfs]
    simp only []
    rw [hashResult_store_self]
    rfl

/-- One successful classification leaves every path's classification
unchanged. -/
theorem presult_stable_one {hasher : String → Except IOErr String}
    {fs : FileSystem} {record : String → Option String} {c : HashCache}
    {p : String} {r : FileStatus × BaseManifestPath} {c1 : HashCache}
    (h : process_input_path hasher fs record c p = .ok (r, c1)) :
    ∀ x, presult hasher fs record c1 x = presult hasher fs record c x := by
  intro x
  by_cases hx : x = p
  · subst hx
    rw [presult_after_store h, presult_of_process h]
  · exact presult_congr hasher fs record (process_store_ne h x hx)

/-- Decomposition of a successful run on a non-empty order. -/
theorem detect_run_cons_ok {hasher : String → Except IOErr String}
    {fs : FileSystem} {record : String → Option String} {c : HashCache}
    {p : String} {ps : List String}
    {rs : List (FileStatus × BaseManifestPath)} {c2 : HashCache}
    (h : detect_run hasher fs record c (p :: ps) = .ok (rs, c2)) :
    ∃ r c1 rs', process_input_path hasher fs record c p = .ok (r, c1)
      ∧ detect_run hasher fs record c1 ps = .ok (rs', c2)
      ∧ rs = r :: rs' := by
  simp only [detect_run] at h
  split at h
  · cases h
  · rename_i r c1 hp
    split at h
    · cases h
    · rename_i rs' c2' hrun
      simp only [Except.ok.injEq, Prod.mk.injEq] at h
      exact ⟨r, c1, rs', hp, h.2 ▸ hrun, h.1.symm⟩

/-- After a successful run, every path still classifies as it did
against the starting cache. -/
theorem detect_run_stable {hasher : String → Except IOErr String}
    {fs : FileSystem} {record : String → Option String} :
    ∀ (order : List String) {c : HashCache}
      {rs : List (FileStatus × BaseManifestPath)} {cf : HashCache},
      detect_run hasher fs record c order = .ok (rs, cf) →
      ∀ x, presult hasher fs record cf x = presult hasher fs record c x := by
  intro order
  induction order with
  | nil =>
    intro c rs cf h x
    simp only [detect_run, Except.ok.injEq, Prod.mk.injEq] at h
    rw [h.2]
  | cons p ps ih =>
    intro c rs cf h x
    obtain ⟨r, c1, rs', hp, hrun, _⟩ := detect_run_cons_ok h
    rw [ih hrun x, presult_stable_one hp x]

/-- Classifications against one fixed cache agree when the caches agree
pathwise. -/
theorem seqMap_congr {hasher : String → Except IOErr String}
    {fs : FileSystem} {record : String → Option String}
    {c c' : HashCache} :
    ∀ (ps : List String),
      (∀ p ∈ ps, presult hasher fs record c p = presult hasher fs record c' p) →
      seqMap hasher fs record c ps = seqMap hasher fs record c' ps := by
  intro ps
  induction ps with
  | nil => intro _; rfl
  | cons p ps ih =>
    intro hall
    simp only [seqMap]
    rw [hall p (List.mem_cons_self _ _),
      ih (fun x hx => hall x (List.mem_cons_of_mem _ hx))]

/-- The classifications of a run equal the per-path classifications all
taken against the starting cache: the shared cache's evolution never
changes a later path's result. -/
theorem detect_run_results {hasher : String → Except IOErr String}
    {fs : FileSystem} {record : String → Option String} :
    ∀ (order : List String) (c : HashCache),
      (detect_run hasher fs record c order).map Prod.fst
        = seqMap hasher fs record c order := by
  intro order
  induction order with
  | nil => intro c; rfl
  | cons p ps ih =>
    intro c
    simp only [detect_run, seqMap]
    cases hp : process_input_path hasher fs record c p with
    | error e =>
      have hpe : presult hasher fs record c p = .error e := by
        unfold presult
        rw [hp]
        rfl
      rw [hpe]
      simp only []
      rfl
    | ok rc1 =>
      obtain ⟨r, c1⟩ := rc1
      have hpr : presult hasher fs record c p = .ok r := presult_of_process hp
      rw [hpr]
      simp only []
      have hs : seqMap hasher fs record c1 ps = seqMap hasher fs record c ps :=
        seqMap_congr ps (fun x _ => presult_stable_one hp x)
      rw [← hs, ← ih c1]
      cases hrun : detect_run hasher fs record c1 ps with
      | error e => rfl
      | ok rsc =>
        obtain ⟨rs, c2⟩ := rsc
        rfl

/-- A successful `seqMap` means every path classifies successfully, and
the result is the pointwise classification list. -/
theorem seqMap_ok {hasher : String → Except IOErr String}
    {fs : FileSystem} {record : String → Option String} {c : HashCache} :
    ∀ {order : List String} {l : List (FileStatus × BaseManifestPath)},
      seqMap hasher fs record c order = .ok l →
      (∀ p ∈ order, ∃ r, presult hasher fs record c p = .ok r)
      ∧ l = order.map (pextract hasher fs record c) := by
  intro order
  induction order with
  | nil =>
    intro l h
    simp only [seqMap, Except.ok.injEq] at h
    refine ⟨fun p hp => absurd hp (List.not_mem_nil p), ?_⟩
    rw [← h]
    rfl
  | cons p ps ih =>
    intro l h
    simp only [seqMap] at h
    cases hp : presult hasher fs record c p with
    | error e => rw [hp] at h; cases h
    | ok r =>
      rw [hp] at h
      cases hs : seqMap hasher fs record c ps with
      | error e => rw [hs] at h; cases h
      | ok rs =>
        rw [hs] at h
        obtain ⟨hall, hmap⟩ := ih hs
        simp only [Except.ok.injEq] at h
        constructor
        · intro q hq
          rcases List.mem_cons.mp hq with rfl | hmem
          · exact ⟨r, hp⟩
          · exact hall q hmem
        · have h1 : pextract hasher fs record c p = r := by
            unfold pextract
            rw [hp]
          rw [← h, List.map_cons, h1, ← hmap]

/-- Claim C7: change detection is deterministic — running it twice on an
unmodified filesystem, with any two completion orders of the same input
paths (the second run seeing the cache the first run wrote), yields the
same classification multiset; only list order may differ. -/
theorem c7_detection_deterministic {hasher : String → Except IOErr String}
    {fs : FileSystem} {record : String → Option String} {c : HashCache}
    {order1 order2 : List String}
    {l1 l2 : List (FileStatus × BaseManifestPath)} {c1 c2 : HashCache}
    (hperm : order1.Perm order2)
    (h1 : get_file_changes hasher fs record c order1 = .ok (l1, c1))
    (h2 : get_file_changes hasher fs record c1 order2 = .ok (l2, c2)) :
    l1.Perm l2 := by
  unfold get_file_changes at h1 h2
  split at h1
  · cases h1
  · rename_i rs1 c1' hr1
    simp only [Except.ok.injEq, Prod.mk.injEq] at h1
    obtain ⟨hl1, hc1'⟩ := h1
    rw [hc1'] at hr1
    split at h2
    · cases h2
    · rename_i rs2 c2' hr2
      simp only [Except.ok.injEq, Prod.mk.injEq] at h2
      obtain ⟨hl2, _⟩ := h2
      have hseq1 : seqMap hasher fs record c order1 = .ok rs1 := by
        rw [← detect_run_results order1 c, hr1]
        rfl
      have hmap1 := (seqMap_ok hseq1).2
      have hstab := detect_run_stable order1 hr1
      have hcongr : seqMap hasher fs record c1 order2
          = seqMap hasher fs record c order2 :=
        seqMap_congr order2 (fun x _ => hstab x)
      have hseq2 : seqMap hasher fs record c order2 = .ok rs2 := by
        rw [← hcongr, ← detect_run_results order2 c1, hr2]
        rfl
      have hmap2 := (seqMap_ok hseq2).2
      rw [← hl1, ← hl2, hmap1, hmap2]
      exact (hperm.map _).filter _

/-- Witness for C7: two runs over the same two files in opposite
completion orders, the second against the first run's cache, classify
identically. -/
theorem c7_detection_deterministic_witness :
    List.Perm
      [((FileStatus.NEW : FileStatus), (⟨"b", "bX", 2, 2⟩ : BaseManifestPath))]
      [((FileStatus.NEW : FileStatus), (⟨"b", "bX", 2, 2⟩ : BaseManifestPath))] :=
  @c7_detection_deterministic
    (fun p => if p = "a" then Except.ok "aX" else Except.ok "bX")
    (fun p => if p = "a" then some ⟨1, 1⟩
      else if p = "b" then some ⟨2, 2⟩ else none)
    (fun p => if p = "a" then some "aX" else none)
    (fun _ => none)
    ["a", "b"] ["b", "a"]
    [(FileStatus.NEW, ⟨"b", "bX", 2, 2⟩)]
    [(FileStatus.NEW, ⟨"b", "bX", 2, 2⟩)]
    (fun q => if q = "b" then some ((2, 2), "bX")
      else if q = "a" then some ((1, 1), "aX") else none)
    (fun q => if q = "a" then some ((1, 1), "aX")
      else if q = "b" then some ((2, 2), "bX")
      else if q = "b" then some ((2, 2), "bX")
      else if q = "a" then some ((1, 1), "aX") else none)
    (by decide) rfl rfl

/-- Claim C2 (amended): `get_file_changes` returns successfully only
when every input path classifies successfully — a single path's I/O
failure during hashing makes the whole call fail, and no partial result
pairing classifications with per-path errors is ever produced. -/
theorem c2_error_aborts {hasher : String → Except IOErr String}
    {fs : FileSystem} {record : String → Option String} {c : HashCache}
    {order : List String} {l : List (FileStatus × BaseManifestPath)}
    {cf : HashCache}
    (hok : get_file_changes hasher fs record c order = .ok (l, cf)) :
    ∀ p ∈ order, ∃ r, presult hasher fs record c p = .ok r := by
  unfold get_file_changes at hok
  split at hok
  · cases hok
  · rename_i rs c' hr
    have hseq : seqMap hasher fs record c order = .ok rs := by
      rw [← detect_run_results order c, hr]
      rfl
    exact (seqMap_ok hseq).1

/-- Witness for C2 (amended) on a concrete successful call. -/
theorem c2_error_aborts_witness :
    ∃ r, presult (fun _ => Except.ok "hx")
      (fun q => if q = "x" then some ⟨1, 1⟩ else none)
      (fun _ => none) (fun _ => none) "x" = .ok r :=
  @c2_error_aborts (fun _ => Except.ok "hx")
    (fun q => if q = "x" then some ⟨1, 1⟩ else none)
    (fun _ => none) (fun _ => none) ["x"]
    [(FileStatus.NEW, ⟨"x", "hx", 1, 1⟩)]
    (fun q => if q = "x" then some ((1, 1), "hx") else none)
    rfl "x" (by simp)

/-- Counterexample to C2 as stated: with two paths of which one fails to
hash, the whole call aborts with that error — the other path was
classifiable, yet no partial result carrying its classification
alongside the per-path error is returned. -/
theorem c2_counterexample :
    get_file_changes
        (fun p => if p = "bad" then Except.error ⟨"io"⟩ else Except.ok "gh")
        (fun p => if p = "bad" then some ⟨1, 1⟩
          else if p = "good" then some ⟨2, 2⟩ else none)
        (fun _ => none) (fun _ => none) ["bad", "good"]
      = .error ⟨"io"⟩
    ∧ presult
        (fun p => if p = "bad" then Except.error ⟨"io"⟩ else Except.ok "gh")
        (fun p => if p = "bad" then some ⟨1, 1⟩
          else if p = "good" then some ⟨2, 2⟩ else none)
        (fun _ => none) (fun _ => none) "good"
      = .ok (FileStatus.NEW, ⟨"good", "gh", 2, 2⟩) := by
  constructor
  · rfl
  · rfl

/-- Claim C1 (amended): a manifest path absent from disk is classified
`DELETED` without any hashing (the result does not depend on the hasher
and the cache is untouched), but `get_file_changes` keeps only `NEW` and
`MODIFIED` classifications, so no `DELETED` entry is in the result
returned to the caller. -/
theorem c1_deleted_not_in_result {hasher : String → Except IOErr String}
    {fs : FileSystem} {record : String → Option String} {c : HashCache}
    {p : String} {order : List String}
    {l : List (FileStatus × BaseManifestPath)} {cf : HashCache}
    (hp : fs p = none)
    (hok : get_file_changes hasher fs record c order = .ok (l, cf)) :
    process_input_path hasher fs record c p
        = .ok ((FileStatus.DELETED, ⟨p, (record p).getD "", 0, 0⟩), c)
    ∧ (∀ hasher2 : String → Except IOErr String,
        process_input_path hasher2 fs record c p
          = process_input_path hasher fs record c p)
    ∧ ∀ x ∈ l, x.1 ≠ FileStatus.DELETED := by
  refine ⟨?_, ?_, ?_⟩
  · unfold process_input_path
    rw [hp]
  · intro hasher2
    unfold process_input_path
    rw [hp]
  · unfold get_file_changes at hok
    split at hok
    · cases hok
    · rename_i rs c' hr
      simp only [Except.ok.injEq, Prod.mk.injEq] at hok
      intro x hx
      rw [← hok.1] at hx
      rw [List.mem_filter] at hx
      have hpred := hx.2
      intro hdel
      rw [hdel] at hpred
      exact absurd hpred (by decide)

/-- Witness for C1 (amended) at a concrete manifest path absent from
disk. -/
theorem c1_deleted_not_in_result_witness :
    process_input_path (fun _ => Except.ok "") (fun _ => none)
        (fun q => if q = "a.txt" then some "h1" else none) (fun _ => none)
        "a.txt"
      = .ok ((FileStatus.DELETED, ⟨"a.txt", "h1", 0, 0⟩), fun _ => none)
    ∧ (∀ hasher2 : String → Except IOErr String,
        process_input_path hasher2 (fun _ => none)
          (fun q => if q = "a.txt" then some "h1" else none) (fun _ => none)
          "a.txt"
        = process_input_path (fun _ => Except.ok "") (fun _ => none)
          (fun q => if q = "a.txt" then some "h1" else none) (fun _ => none)
          "a.txt")
    ∧ ∀ x ∈ ([] : List (FileStatus × BaseManifestPath)),
        x.1 ≠ FileStatus.DELETED :=
  @c1_deleted_not_in_result (fun _ => Except.ok "") (fun _ => none)
    (fun q => if q = "a.txt" then some "h1" else none) (fun _ => none)
    "a.txt" ["a.txt"] [] (fun _ => none) rfl rfl

/-- Counterexample to C1 as stated: a path listed in the manifest and
absent from disk is classified `DELETED`, yet the detection result that
`get_file_changes` returns to the caller is empty — the `DELETED` entry
is not included. -/
theorem c1_counterexample :
    get_file_changes (fun _ => Except.ok "") (fun _ => none)
        (fun q => if q = "a.txt" then some "h1" else none) (fun _ => none)
        ["a.txt"]
      = .ok ([], fun _ => none)
    ∧ presult (fun _ => Except.ok "") (fun _ => none)
        (fun q => if q = "a.txt" then some "h1" else none) (fun _ => none)
        "a.txt"
      = .ok (FileStatus.DELETED, ⟨"a.txt", "h1", 0, 0⟩) := by
  constructor
  · rfl
  · rfl
